import Mathlib

/-!
Verification of the tts-tools flatten/unflatten engine and its VS-editor
adapter (`packages/vs-editor/src/TTSAdapter.ts`).

Strings are modelled as lists of characters (`Str`).  The adapter functions
(`toFileInfo`, `getUnbundledLua`, `readFilesFromTTS`, `createScripts`,
`saveAndPlay`, `saveAllFiles`) are shallow embeddings of the TypeScript
source; effectful collaborators (the lua/xml bundlers, `workspace.saveAll`,
the file reader) are passed in as explicit function arguments or outcome
values, and file writes / error popups are returned as data.

The bundler core (`bundleLua` / `unbundleLua` / `bundleXml` from
`./io/bundle`) is not part of the editor sources, so it is modelled from the
specification (sections 4.1-4.4): a resolver over an ordered search-path
list, a depth-first grapher/bundler with three-colour cycle detection that
inlines each module once inside boundary-marker pairs and emits
back-references afterwards, and an unbundler that parses the markers back
into per-module contents and degrades to a single unsplit module on
malformed input.
-/

namespace TTSTools

/-- Characters of a source string. -/
abbrev Str := List Char

/-! ## Core data model (modelled from the spec, sections 3 and 4)

A module's content is a list of lines; each line is either plain text or an
include directive referencing another module by name.  A combined document
is a list of lines where, additionally, a line can be an opening or closing
boundary marker or a back-reference marker. -/

/-- Modelled from the spec: one line of a module's content — plain text or
an include directive referencing a module by name (section 3, Module /
IncludeDirective). -/
inductive Item where
  | text (s : Str)
  | inc (n : Str)
deriving DecidableEq

/-- Modelled from the spec: one line of a combined document — plain text, an
opening/closing boundary marker carrying the module identifier (its original
relative path), or a back-reference marker (sections 3 and 4.3). -/
inductive BLine where
  | text (s : Str)
  | openM (n : Str)
  | closeM (n : Str)
  | backref (n : Str)
deriving DecidableEq

/-- Modelled from the spec: a module — identifier (derived from its
relative path) plus parsed content (section 3). -/
structure Module where
  name : Str
  items : List Item
deriving DecidableEq

/-- Modelled from the spec: the file universe seen by the resolver — entries
of (search-root directory, module name, parsed file content). -/
abbrev FS := List (Str × Str × List Item)

/-- Modelled from the spec: the bundle-time error taxonomy (section 7).
`fuelOut` is an artefact of the fuel-based recursion; `bundle` always
supplies enough fuel (theorem `bundleItems_no_fuelOut`). -/
inductive BErr where
  | unresolvedInclude (n : Str) (line : Nat)
  | cyclicInclude (chain : List Str)
  | fuelOut
deriving DecidableEq

/-- Modelled from the spec: look a module name up under one search root. -/
def lookupFs (fs : FS) (d n : Str) : Option (List Item) :=
  (fs.find? (fun e => decide (e.1 = d) && decide (e.2.1 = n))).map (fun e => e.2.2)

/-- Modelled from the spec: `resolve(moduleName, searchPaths)` tries each
search root in list order and returns the first root where a file matching
the module name exists, together with that file's content (section 4.1). -/
def resolve (fs : FS) : List Str → Str → Option (Str × List Item)
  | [], _ => none
  | d :: rest, n =>
    match lookupFs fs d n with
    | some c => some (d, c)
    | none => resolve fs rest n

/-- Content of a resolvable module (empty for unresolvable names). -/
def rcontent (fs : FS) (sp : List Str) (n : Str) : List Item :=
  match resolve fs sp n with
  | some (_, c) => c
  | none => []

/-- Total size of the not-yet-inlined part of the file universe; used to
bound the recursion depth of the bundler. -/
def fsWeight (fs : FS) (inl : List Str) : Nat :=
  ((fs.filter (fun e => decide (e.2.1 ∉ inl))).map (fun e => e.2.2.length + 2)).sum

/-- Modelled from the spec: the bundler's depth-first walk (sections 4.2 and
4.3).  `ln` is the current line within the module being processed, `stk` the
in-progress (grey) chain for cycle detection, `inl` the modules already
inlined.  An include of an in-progress module fails with the cycle chain in
visitation order; an unresolvable include fails with the name and line; an
already-inlined module becomes a back-reference marker; otherwise the
resolved content is inlined once between an opening and a closing boundary
marker.  Structural recursion on an explicit fuel argument. -/
def bundleItems (fs : FS) (sp : List Str) :
    Nat → Nat → List Str → List Str → List Item →
    Except BErr (List BLine × List Str)
  | 0, _, _, _, _ => .error .fuelOut
  | fuel + 1, ln, stk, inl, items =>
    match items with
    | [] => .ok ([], inl)
    | .text s :: rest =>
      match bundleItems fs sp fuel (ln + 1) stk inl rest with
      | .ok (b, i) => .ok (.text s :: b, i)
      | .error e => .error e
    | .inc n :: rest =>
      if n ∈ stk then .error (.cyclicInclude (stk ++ [n]))
      else
        match resolve fs sp n with
        | none => .error (.unresolvedInclude n ln)
        | some (_, c) =>
          if n ∈ inl then
            match bundleItems fs sp fuel (ln + 1) stk inl rest with
            | .ok (b, i) => .ok (.backref n :: b, i)
            | .error e => .error e
          else
            match bundleItems fs sp fuel 0 (stk ++ [n]) (inl ++ [n]) c with
            | .error e => .error e
            | .ok (body, inl1) =>
              match bundleItems fs sp fuel (ln + 1) stk inl1 rest with
              | .error e => .error e
              | .ok (b, inl2) =>
                .ok (.openM n :: (body ++ .closeM n :: b), inl2)

/-- Fuel that always suffices for the depth-first walk. -/
def bundleFuel (fs : FS) (root : Module) : Nat :=
  root.items.length + 1 + fsWeight fs []

/-- Modelled from the spec: `bundle(rootModule, searchPaths)` — the root
module's content is walked depth-first and the combined document is the root
content, with every directive inlined in place, wrapped in the root's own
boundary-marker pair (section 4.3). -/
def bundle (fs : FS) (sp : List Str) (root : Module) : Except BErr (List BLine) :=
  match bundleItems fs sp (bundleFuel fs root) 0 [root.name] [root.name] root.items with
  | .error e => .error e
  | .ok (body, _) => .ok (.openM root.name :: (body ++ [.closeM root.name]))

/-! ## Unbundler (modelled from the spec, section 4.4) -/

/-- Parser state of the unbundler: `top` accumulates top-level content
outside every marker pair, `stk` the open marker pairs with the content
collected so far, `res` the finished modules in closing order. -/
structure UState where
  top : List Item
  stk : List (Str × List Item)
  res : List (Str × List Item)
deriving DecidableEq

/-- Append one reconstructed item to the innermost open module (or to the
top level when no marker pair is open). -/
def appendCur (st : UState) (i : Item) : UState :=
  match st.stk with
  | [] => { st with top := st.top ++ [i] }
  | (n, its) :: rest => { st with stk := (n, its ++ [i]) :: rest }

/-- Append several reconstructed items to the innermost open module. -/
def extendCur (st : UState) (its : List Item) : UState :=
  match st.stk with
  | [] => { st with top := st.top ++ its }
  | (n, acc) :: rest => { st with stk := (n, acc ++ its) :: rest }

/-- Modelled from the spec: one step of the unbundler's marker parse.  Text
extends the current module; an opening marker starts a module; a closing
marker must match the innermost open marker (otherwise the document is
malformed, `none`), finishes that module, and leaves an include directive in
its enclosing module; a back-reference becomes an include directive. -/
def ustep (st : UState) : BLine → Option UState
  | .text s => some (appendCur st (.text s))
  | .backref n => some (appendCur st (.inc n))
  | .openM n => some { st with stk := (n, []) :: st.stk }
  | .closeM n =>
    match st.stk with
    | [] => none
    | (m, its) :: rest =>
      if m = n then
        let st1 : UState := { top := st.top, stk := rest, res := st.res ++ [(m, its)] }
        match rest with
        | [] => some st1
        | _ :: _ => some (appendCur st1 (.inc m))
      else none

/-- Run the marker parse over a whole document. -/
def urun (st : UState) (doc : List BLine) : Option UState :=
  doc.foldlM ustep st

/-- Key under which a malformed document is returned as one unsplit module. -/
def malformedKey : Str := "__unbundled__".toList

/-- Key of the synthetic module holding content outside every marker pair. -/
def trailingKey : Str := "__trailing__".toList

/-- Modelled from the spec: the non-fatal unbundle-time error (section 7). -/
inductive MalformedBundleError where
  | malformed
deriving DecidableEq

/-- A combined-document line in its raw textual form, for the degraded
single-module outcome (markers are comment lines in the host grammar). -/
def blineToItem : BLine → Item
  | .text s => .text s
  | .openM n => .text ("----#open ".toList ++ n)
  | .closeM n => .text ("----#close ".toList ++ n)
  | .backref n => .text ("----#backref ".toList ++ n)

/-- Modelled from the spec: `unbundle(combinedContent)` parses the boundary
markers back into per-module contents keyed by original relative path.  If
markers are absent, unbalanced or mismatched, the whole input is returned as
one unsplit module together with a non-fatal MalformedBundleError; content
outside every marker pair goes to a synthetic trailing module (section 4.4). -/
def unbundle (doc : List BLine) :
    List (Str × List Item) × Option MalformedBundleError :=
  match urun ⟨[], [], []⟩ doc with
  | none => ([(malformedKey, doc.map blineToItem)], some .malformed)
  | some st =>
    match st.stk, st.res with
    | [], _ :: _ =>
      (st.res ++ (match st.top with
                  | [] => []
                  | _ :: _ => [(trailingKey, st.top)]), none)
    | _, _ => ([(malformedKey, doc.map blineToItem)], some .malformed)

/-- First value bound to a key in an association list. -/
def lookupKey (m : List (Str × List Item)) (k : Str) : Option (List Item) :=
  (m.find? (fun p => decide (p.1 = k))).map (fun p => p.2)

/-- The original content of a module identifier: the root's own content for
the root, a resolved file's content otherwise. -/
def reachContent (fs : FS) (sp : List Str) (root : Module) (n : Str) : List Item :=
  if n = root.name then root.items else rcontent fs sp n

/-- Module identifiers reachable from the root through resolved include
directives. -/
inductive Reach (fs : FS) (sp : List Str) (root : Module) : Str → Prop
  | root : Reach fs sp root root.name
  | step (m k : Str) : Reach fs sp root m →
      Item.inc k ∈ reachContent fs sp root m → Reach fs sp root k

/-- All module contents that occur in a bundle operation: the root's and
those of every file under the search roots. -/
def allContents (fs : FS) (root : Module) : List (List Item) :=
  root.items :: fs.map (fun e => e.2.2)

/-! ## Adapter (embedded from `packages/vs-editor/src/TTSAdapter.ts`) -/

/-- An incoming script state from the runtime (the fields `toFileInfo`
sees).  The optional `ui` payload is present in the wire format but is never
read by `toFileInfo`. -/
structure IncomingJsonObject where
  name : Str
  guid : Str
  script : Str
  ui : Option Str
deriving DecidableEq

/-- The `ObjectFile` record built by `toFileInfo` (lines 194-204): the
script's raw and unbundled content, and an optional ui pair (raw, content). -/
structure ObjectFile where
  fileName : Str
  scriptRaw : Str
  scriptContent : Str
  ui : Option (Str × Str)
deriving DecidableEq

/-- An outgoing script object assembled by `createScripts` (the
`OutgoingJsonObject` of the editor API).  The guid is the second
dot-separated segment of the file name, which may be missing. -/
structure OutgoingJsonObject where
  guid : Option Str
  script : Str
  ui : Option Str
deriving DecidableEq, Inhabited

/-- One workspace file write performed by `readFilesFromTTS`. -/
structure WriteOp where
  dir : Str
  file : Str
  content : Str
deriving DecidableEq

/-- The characters removed from an object name by `toFileInfo` (line 207,
the regex character class). -/
def forbiddenChars : List Char := ['"', ':', '<', '>', '/', '\\', '|', '?', '*']

/-- `object.name.replace(/(["":<>\/\\|?*])/g, "")` of line 207: every
occurrence of a forbidden character is removed. -/
def sanitizeName (s : Str) : Str :=
  s.filter (fun c => decide (c ∉ forbiddenChars))

/-- `getUnbundledLua` (lines 219-226): apply the unbundler and fall back to
the unmodified argument when it throws.  The unbundler `u` (the external
`unbundleLua`) is passed in explicitly. -/
def getUnbundledLua {E : Type} (u : Str → Except E Str) (s : Str) : Str :=
  match u s with
  | .ok r => r
  | .error _ => s

/-- `toFileInfo` (lines 206-217): strip forbidden characters from the name,
join it with the guid by a dot, keep the raw script and its unbundled
content.  The `ui` field of the result is never populated. -/
def toFileInfo {E : Type} (u : Str → Except E Str) (o : IncomingJsonObject) :
    ObjectFile :=
  { fileName := sanitizeName o.name ++ '.' :: o.guid
    scriptRaw := o.script
    scriptContent := getUnbundledLua u o.script
    ui := none }

/-- `readFilesFromTTS` (lines 105-124): for every script state, write the
unbundled content and the raw script as `.lua` files; when the `ui` field of
the `ObjectFile` is present, additionally write the `.xml` raw and content
files.  Writes are returned as data in program order. -/
def readFilesFromTTS {E : Type} (u : Str → Except E Str) (outputPath : Str)
    (scriptStates : List IncomingJsonObject) : List WriteOp :=
  let rawPath := outputPath ++ "/raw".toList
  (scriptStates.map (toFileInfo u)).flatMap (fun f =>
    [⟨outputPath, f.fileName ++ ".lua".toList, f.scriptContent⟩,
     ⟨rawPath, f.fileName ++ ".lua".toList, f.scriptRaw⟩]
    ++ match f.ui with
       | none => []
       | some (raw, content) =>
         [⟨rawPath, f.fileName ++ ".xml".toList, raw⟩,
          ⟨outputPath, f.fileName ++ ".xml".toList, content⟩])

/-- JavaScript `String.prototype.split` restricted to a one-character
separator, as used in `fileName.split(".")` (line 140). -/
def splitOnChar (c : Char) : Str → List Str
  | [] => [[]]
  | x :: xs =>
    match splitOnChar c xs with
    | [] => [[]]
    | y :: ys => if x = c then [] :: y :: ys else (x :: y) :: ys

/-- `fileName.split(".")[1]` of line 140: the recovered guid, absent when
the file name has fewer than two dot-separated segments. -/
def guidOf (f : Str) : Option Str := (splitOnChar '.' f)[1]?

/-- `posix.join(directory.path, fileName)` of line 142. -/
def uriOf (dir f : Str) : Str := dir ++ '/' :: f

/-- Lines 145-147: register a fresh `{ guid, script: "" }` entry for the
file's guid when the scripts map has none yet. -/
def registerGuid (m : List (Option Str × OutgoingJsonObject)) (f : Str) :
    List (Option Str × OutgoingJsonObject) :=
  let g := guidOf f
  if m.any (fun e => decide (e.1 = g)) then m
  else m ++ [(g, { guid := g, script := [], ui := none })]

/-- `scripts.get(guid)!.script = ...` of line 151 (guids are registered at
most once, so at most one entry is updated). -/
def setScript (m : List (Option Str × OutgoingJsonObject)) (g : Option Str)
    (s : Str) : List (Option Str × OutgoingJsonObject) :=
  m.map (fun e => if e.1 = g then (e.1, { e.2 with script := s }) else e)

/-- `scripts.get(guid)!.ui = ...` of line 153. -/
def setUi (m : List (Option Str × OutgoingJsonObject)) (g : Option Str)
    (s : Str) : List (Option Str × OutgoingJsonObject) :=
  m.map (fun e => if e.1 = g then (e.1, { e.2 with ui := some s }) else e)

/-- The loop body of `createScripts` (lines 139-159) for one file name:
recover the guid, register it, then bundle — `.lua` files through `bundleLua`
with the whole include-path list, `.xml` files through `bundleXml` with
`includePaths[0]` only.  A bundling error is caught: its message is appended
to the error log and processing continues. -/
def processFile (bLua : Str → List Str → Except Str Str)
    (bXml : Str → Option Str → Except Str Str)
    (ip : List Str) (dir : Str)
    (st : List (Option Str × OutgoingJsonObject) × List Str) (f : Str) :
    List (Option Str × OutgoingJsonObject) × List Str :=
  let g := guidOf f
  let uri := uriOf dir f
  let m := registerGuid st.1 f
  if (".lua".toList).isSuffixOf f then
    match bLua uri ip with
    | .ok s => (setScript m g s, st.2)
    | .error e => (m, st.2 ++ [e])
  else if (".xml".toList).isSuffixOf f then
    match bXml uri ip[0]? with
    | .ok s => (setUi m g s, st.2)
    | .error e => (m, st.2 ++ [e])
  else (m, st.2)

/-- `createScripts` (lines 126-162): fold the loop body over the file names
and return the scripts map's values together with the error messages shown
to the user.  The two bundlers are the external `bundleLua` / `bundleXml`. -/
def createScripts (bLua : Str → List Str → Except Str Str)
    (bXml : Str → Option Str → Except Str Str)
    (ip : List Str) (files : List Str) (dir : Str) :
    List OutgoingJsonObject × List Str :=
  let st := files.foldl (processFile bLua bXml ip dir) ([], [])
  (st.1.map Prod.snd, st.2)

/-- The fixed first part of the message built by `saveAllFiles`
(lines 228-234). -/
def savePrefixMsg : Str := "Unable to save opened files.".toList

/-- `saveAllFiles` (lines 228-234): a rejection of `workspace.saveAll`
(passed in as its outcome) is rethrown with the fixed message followed by
the reason. -/
def saveAllFiles (saveAll : Except Str Unit) : Except Str Unit :=
  match saveAll with
  | .ok _ => .ok ()
  | .error reason => .error (savePrefixMsg ++ ("\nDetail: ".toList ++ reason))

/-- Outcome of one `saveAndPlay` call: the scripts sent to the runtime, if
any, and the messages logged through `this.error`. -/
structure SPOutcome where
  sent : Option (List OutgoingJsonObject)
  logged : List Str
deriving DecidableEq

/-- The body of `saveAndPlay`'s try block (lines 44-50): save the open
files, read the workspace files, create the scripts.  Each step's outcome is
passed in; the first error aborts the chain. -/
def spPipeline (saveAll : Except Str Unit) (readFiles : Except Str (List Str))
    (create : List Str → Except Str (List OutgoingJsonObject)) :
    Except Str (List OutgoingJsonObject) :=
  match saveAllFiles saveAll with
  | .error e => .error e
  | .ok _ =>
    match readFiles with
    | .error e => .error e
    | .ok files => create files

/-- `saveAndPlay` (lines 43-54): run the pipeline; on success send the
scripts, on any error log it and send nothing.  The function is total — the
returned promise always resolves. -/
def saveAndPlay (saveAll : Except Str Unit) (readFiles : Except Str (List Str))
    (create : List Str → Except Str (List OutgoingJsonObject)) : SPOutcome :=
  match spPipeline saveAll readFiles create with
  | .ok scripts => { sent := some scripts, logged := [] }
  | .error e => { sent := none, logged := [e] }

/-! ## Concrete instances used by counterexamples and witnesses -/

/-- Two-module cyclic graph: `A includes B`, `B includes A`. -/
def fsAB : FS :=
  [("d".toList, "A".toList, [Item.inc "B".toList]),
   ("d".toList, "B".toList, [Item.inc "A".toList])]

/-- Root module `A` of the cyclic graph. -/
def rootA : Module := ⟨"A".toList, [Item.inc "B".toList]⟩

/-- Acyclic graph for the round-trip witness: the root `A` includes `B`. -/
def fsRT : FS := [("d".toList, "B".toList, [Item.text "hi".toList])]

/-- Root module of the round-trip witness. -/
def rootRT : Module := ⟨"A".toList, [Item.inc "B".toList, Item.text "tail".toList]⟩

/-- The combined document `bundle` produces for the round-trip witness. -/
def docRT : List BLine :=
  [.openM "A".toList, .openM "B".toList, .text "hi".toList,
   .closeM "B".toList, .text "tail".toList, .closeM "A".toList]

/-- Graph whose root reaches a cycle and also contains an unresolvable
include: `R includes A`, `A includes R`, and `R includes M` with `M` absent. -/
def fsCyc : FS := [("d".toList, "A".toList, [Item.inc "R".toList])]

/-- Root module of the cycle-preemption instance. -/
def rootCyc : Module := ⟨"R".toList, [Item.inc "A".toList, Item.inc "M".toList]⟩

/-- File universe with module `M` only under `dirY`. -/
def fsXY : FS := [("dirY".toList, "M".toList, [Item.text "m".toList])]

/-- Root with a single include of a module absent from every search root. -/
def rootMiss : Module := ⟨"A".toList, [Item.inc "Missing".toList]⟩

/-- File universe with module `M` under both `dirX` and `dirY`. -/
def fsBoth : FS :=
  [("dirX".toList, "M".toList, [Item.text "x".toList]),
   ("dirY".toList, "M".toList, [Item.text "y".toList])]

/-! ## Helper lemmas -/

theorem splitOnChar_ne_nil (c : Char) (l : Str) : splitOnChar c l ≠ [] := by
  induction l with
  | nil => simp [splitOnChar]
  | cons x xs ih =>
    simp only [splitOnChar]
    cases h : splitOnChar c xs with
    | nil => exact absurd h ih
    | cons y ys => by_cases hx : x = c <;> simp [hx]

theorem splitOnChar_append (c : Char) (a r : Str) (h : c ∉ a) :
    splitOnChar c (a ++ c :: r) = a :: splitOnChar c r := by
  induction a with
  | nil =>
    simp only [List.nil_append, splitOnChar]
    cases hs : splitOnChar c r with
    | nil => exact absurd hs (splitOnChar_ne_nil c r)
    | cons y ys => simp
  | cons x xs ih =>
    have hx : ¬ x = c := by
      intro e
      exact h (by simp [e])
    have hxs : c ∉ xs := fun m => h (List.mem_cons_of_mem _ m)
    simp only [List.cons_append, splitOnChar, List.append_eq]
    rw [ih hxs]
    simp [hx]

theorem urun_nil (st : UState) : urun st [] = some st := rfl

theorem urun_cons (st : UState) (l : BLine) (ls : List BLine) :
    urun st (l :: ls) = (ustep st l).bind (fun s => urun s ls) := by
  cases h : ustep st l <;>
    simp [urun, List.foldlM_cons, h]

theorem urun_append (st : UState) (l1 l2 : List BLine) :
    urun st (l1 ++ l2) = (urun st l1).bind (fun s => urun s l2) := by
  cases h : urun st l1 with
  | none =>
    simp only [urun, List.foldlM_append]
    simp [urun] at h
    simp [h]
  | some s =>
    simp only [urun, List.foldlM_append]
    simp [urun] at h
    simp [h]

theorem extendCur_nil (st : UState) : extendCur st [] = st := by
  obtain ⟨t, k, r⟩ := st
  cases k with
  | nil => simp [extendCur]
  | cons p ks =>
    obtain ⟨n, acc⟩ := p
    simp [extendCur]

theorem appendCur_extendCur (st : UState) (i : Item) (its : List Item) :
    extendCur (appendCur st i) its = extendCur st (i :: its) := by
  obtain ⟨t, k, r⟩ := st
  cases k with
  | nil => simp [extendCur, appendCur]
  | cons p ks =>
    obtain ⟨n, acc⟩ := p
    simp [extendCur, appendCur]

theorem urun_texts (ls : List Str) : ∀ st : UState,
    urun st (ls.map BLine.text) = some (extendCur st (ls.map Item.text)) := by
  induction ls with
  | nil =>
    intro st
    simp [urun_nil, extendCur_nil]
  | cons a as ih =>
    intro st
    simp only [List.map_cons]
    rw [urun_cons]
    show urun (appendCur st (Item.text a)) (as.map BLine.text)
      = some (extendCur st (Item.text a :: as.map Item.text))
    rw [ih (appendCur st (Item.text a)), appendCur_extendCur]

theorem lookupKey_append_right : ∀ (m1 m2 : List (Str × List Item)) (k : Str),
    k ∉ m1.map Prod.fst → lookupKey (m1 ++ m2) k = lookupKey m2 k := by
  intro m1 m2 k
  induction m1 with
  | nil => intro _; rfl
  | cons p ps ih =>
    intro h
    have hk : ¬ p.1 = k := by
      intro e
      exact h (by simp [e])
    have hps : k ∉ ps.map Prod.fst := fun m => h (by simp [m])
    show lookupKey (p :: (ps ++ m2)) k = lookupKey m2 k
    unfold lookupKey
    rw [List.find?_cons_of_neg _ (by simp [hk])]
    exact ih hps

theorem lookupKey_append_left : ∀ (m1 m2 : List (Str × List Item)) (k : Str)
    (v : List Item), lookupKey m1 k = some v → lookupKey (m1 ++ m2) k = some v := by
  intro m1 m2 k v
  induction m1 with
  | nil =>
    intro h
    exact Option.noConfusion h
  | cons p ps ih =>
    intro h
    by_cases hk : p.1 = k
    · show lookupKey (p :: (ps ++ m2)) k = some v
      unfold lookupKey at h ⊢
      rw [List.find?_cons_of_pos _ (by simp [hk])] at h ⊢
      exact h
    · show lookupKey (p :: (ps ++ m2)) k = some v
      unfold lookupKey at h ⊢
      rw [List.find?_cons_of_neg _ (by simp [hk])] at h ⊢
      exact ih h

theorem lookupKey_of_mem_nodup : ∀ (m : List (Str × List Item)) (k : Str)
    (v : List Item), (m.map Prod.fst).Nodup → (k, v) ∈ m →
    lookupKey m k = some v := by
  intro m k v
  induction m with
  | nil =>
    intro _ hmem
    simp at hmem
  | cons p ps ih =>
    intro hnd hmem
    rcases List.mem_cons.mp hmem with he | hm
    · rw [← he]
      unfold lookupKey
      rw [List.find?_cons_of_pos _ (by simp)]
      rfl
    · have hin : k ∈ ps.map Prod.fst := by
        have := List.mem_map_of_mem Prod.fst hm
        simpa using this
      have hk : ¬ p.1 = k := by
        intro e
        rw [List.map_cons] at hnd
        exact (List.nodup_cons.mp hnd).1 (e ▸ hin)
      have hnd' : (ps.map Prod.fst).Nodup := by
        rw [List.map_cons] at hnd
        exact (List.nodup_cons.mp hnd).2
      unfold lookupKey
      rw [List.find?_cons_of_neg _ (by simp [hk])]
      exact ih hnd' hm

theorem appendCur_res (st : UState) (i : Item) : (appendCur st i).res = st.res := by
  obtain ⟨t, k, r⟩ := st
  cases k with
  | nil => rfl
  | cons p ks =>
    obtain ⟨n, acc⟩ := p
    rfl

theorem appendCur_stk_ne (st : UState) (i : Item) (h : st.stk ≠ []) :
    (appendCur st i).stk ≠ [] := by
  obtain ⟨t, k, r⟩ := st
  cases k with
  | nil => exact absurd rfl h
  | cons p ks =>
    obtain ⟨n, acc⟩ := p
    simp [appendCur]

theorem urun_cons_some (st s1 : UState) (l : BLine) (ls : List BLine)
    (h : ustep st l = some s1) : urun st (l :: ls) = urun s1 ls := by
  rw [urun_cons, h]
  rfl

theorem urun_append_some (st s1 : UState) (l1 l2 : List BLine)
    (h : urun st l1 = some s1) : urun st (l1 ++ l2) = urun s1 l2 := by
  rw [urun_append, h]
  rfl

/-- Soundness of a successful depth-first walk against the unbundler: the
walk extends the inlined list by fresh module names `delta`; the emitted
fragment, fed to the marker parser from any state with an open marker pair,
reconstructs exactly the original items in the current module and records
each newly inlined module with its original resolved content. -/
theorem bundleItems_ok_spec (fs : FS) (sp : List Str) :
    ∀ (fuel ln : Nat) (stk inl : List Str) (items : List Item)
      (body : List BLine) (inl1 : List Str),
    bundleItems fs sp fuel ln stk inl items = .ok (body, inl1) →
    ∃ (delta : List Str) (mods : List (Str × List Item)),
      inl1 = inl ++ delta
      ∧ (mods.map Prod.fst).Perm delta
      ∧ (∀ p ∈ mods, p.2 = rcontent fs sp p.1)
      ∧ (∀ n, Item.inc n ∈ items → n ∈ inl1)
      ∧ (∀ p ∈ mods, ∀ k, Item.inc k ∈ p.2 → k ∈ inl1)
      ∧ (inl.Nodup → inl1.Nodup)
      ∧ ∀ st : UState, st.stk ≠ [] →
          urun st body = some { extendCur st items with res := st.res ++ mods } := by
  intro fuel
  induction fuel with
  | zero =>
    intro ln stk inl items body inl1 h
    exact absurd h (by simp [bundleItems])
  | succ fuel ih =>
    intro ln stk inl items body inl1 h
    cases items with
    | nil =>
      simp only [bundleItems, Except.ok.injEq, Prod.mk.injEq] at h
      obtain ⟨hb, hi⟩ := h
      subst hb
      subst hi
      refine ⟨[], [], by simp, by simp, by simp, by simp, by simp, fun hn => hn, ?_⟩
      intro st _
      rw [urun_nil, extendCur_nil]
      simp
    | cons it rest =>
      cases it with
      | text s =>
        simp only [bundleItems] at h
        cases hrec : bundleItems fs sp fuel (ln + 1) stk inl rest with
        | error e =>
          rw [hrec] at h
          exact absurd h (by simp)
        | ok pr =>
          obtain ⟨b, i⟩ := pr
          rw [hrec] at h
          simp only [Except.ok.injEq, Prod.mk.injEq] at h
          obtain ⟨hb, hi⟩ := h
          subst hb
          subst hi
          obtain ⟨delta, mods, hd, hperm, hval, hincs, hclos, hnd, hrun⟩ :=
            ih _ _ _ _ _ _ hrec
          refine ⟨delta, mods, hd, hperm, hval, ?_, hclos, hnd, ?_⟩
          · intro n hn
            rcases List.mem_cons.mp hn with he | hm
            · exact absurd he (by simp)
            · exact hincs n hm
          · intro st hne
            rw [urun_cons_some st (appendCur st (Item.text s)) (BLine.text s) b rfl,
              hrun _ (appendCur_stk_ne st _ hne), appendCur_extendCur,
              appendCur_res]
      | inc n =>
        simp only [bundleItems] at h
        by_cases hstk : n ∈ stk
        · rw [if_pos hstk] at h
          exact absurd h (by simp)
        · rw [if_neg hstk] at h
          cases hres : resolve fs sp n with
          | none =>
            simp only [hres] at h
            exact absurd h (by simp)
          | some pr =>
            obtain ⟨d, c⟩ := pr
            simp only [hres] at h
            by_cases hinl : n ∈ inl
            · rw [if_pos hinl] at h
              cases hrec : bundleItems fs sp fuel (ln + 1) stk inl rest with
              | error e =>
                rw [hrec] at h
                exact absurd h (by simp)
              | ok pr2 =>
                obtain ⟨b, i⟩ := pr2
                rw [hrec] at h
                simp only [Except.ok.injEq, Prod.mk.injEq] at h
                obtain ⟨hb, hi⟩ := h
                subst hb
                subst hi
                obtain ⟨delta, mods, hd, hperm, hval, hincs, hclos, hnd, hrun⟩ :=
                  ih _ _ _ _ _ _ hrec
                refine ⟨delta, mods, hd, hperm, hval, ?_, hclos, hnd, ?_⟩
                · intro m hm
                  rcases List.mem_cons.mp hm with he | hm2
                  · have : m = n := by
                      cases he
                      rfl
                    subst this
                    rw [hd]
                    exact List.mem_append_left _ hinl
                  · exact hincs m hm2
                · intro st hne
                  rw [urun_cons_some st (appendCur st (Item.inc n)) (BLine.backref n) b rfl,
                    hrun _ (appendCur_stk_ne st _ hne), appendCur_extendCur,
                    appendCur_res]
            · rw [if_neg hinl] at h
              cases hcon : bundleItems fs sp fuel 0 (stk ++ [n]) (inl ++ [n]) c with
              | error e =>
                simp only [hcon] at h
                exact absurd h (by simp)
              | ok prc =>
                obtain ⟨bodyC, inlC⟩ := prc
                simp only [hcon] at h
                cases hrest : bundleItems fs sp fuel (ln + 1) stk inlC rest with
                | error e =>
                  simp only [hrest] at h
                  exact absurd h (by simp)
                | ok prr =>
                  obtain ⟨b, inl2⟩ := prr
                  simp only [hrest] at h
                  simp only [Except.ok.injEq, Prod.mk.injEq] at h
                  obtain ⟨hb, hi⟩ := h
                  subst hb
                  subst hi
                  obtain ⟨dc, mc, hdC, hpermC, hvalC, hincsC, hclosC, hndC, hrunC⟩ :=
                    ih _ _ _ _ _ _ hcon
                  obtain ⟨dr, mr, hdR, hpermR, hvalR, hincsR, hclosR, hndR, hrunR⟩ :=
                    ih _ _ _ _ _ _ hrest
                  have h1 : inl2 = inl ++ (n :: (dc ++ dr)) := by
                    rw [hdR, hdC]
                    simp [List.append_assoc]
                  have hsubC : ∀ x, x ∈ inlC → x ∈ inl2 := by
                    intro x hx
                    rw [hdR]
                    exact List.mem_append_left _ hx
                  refine ⟨n :: (dc ++ dr), mc ++ (n, c) :: mr, h1, ?_, ?_, ?_, ?_, ?_, ?_⟩
                  · simp only [List.map_append, List.map_cons]
                    exact List.perm_middle.trans ((hpermC.append hpermR).cons n)
                  · intro p hp
                    rcases List.mem_append.mp hp with hm | hm
                    · exact hvalC p hm
                    · rcases List.mem_cons.mp hm with he | hm2
                      · subst he
                        show c = rcontent fs sp n
                        simp [rcontent, hres]
                      · exact hvalR p hm2
                  · intro m hm
                    rcases List.mem_cons.mp hm with he | hm2
                    · have : m = n := by
                        cases he
                        rfl
                      subst this
                      rw [h1]
                      simp
                    · exact hincsR m hm2
                  · intro p hp
                    rcases List.mem_append.mp hp with hm | hm
                    · intro k hk
                      exact hsubC k (hclosC p hm k hk)
                    · rcases List.mem_cons.mp hm with he | hm2
                      · subst he
                        intro k hk
                        exact hsubC k (hincsC k hk)
                      · exact hclosR p hm2
                  · intro hn
                    refine hndR (hndC ?_)
                    rw [List.nodup_append]
                    refine ⟨hn, List.nodup_singleton n, ?_⟩
                    intro a ha hb2
                    rw [List.mem_singleton] at hb2
                    subst hb2
                    exact hinl ha
                  · intro st hne
                    obtain ⟨t, k, r⟩ := st
                    cases k with
                    | nil => exact absurd rfl hne
                    | cons hd0 ks =>
                      obtain ⟨p, acc⟩ := hd0
                      rw [urun_cons_some (⟨t, (p, acc) :: ks, r⟩ : UState)
                        (⟨t, (n, []) :: (p, acc) :: ks, r⟩ : UState)
                        (BLine.openM n) (bodyC ++ BLine.closeM n :: b) rfl]
                      rw [urun_append_some _
                        ({ extendCur (⟨t, (n, []) :: (p, acc) :: ks, r⟩ : UState) c with
                          res := (⟨t, (n, []) :: (p, acc) :: ks, r⟩ : UState).res ++ mc })
                        _ _ (hrunC _ (by simp))]
                      have hstC : ({ extendCur (⟨t, (n, []) :: (p, acc) :: ks, r⟩ : UState) c with
                          res := (⟨t, (n, []) :: (p, acc) :: ks, r⟩ : UState).res ++ mc } : UState)
                          = ⟨t, (n, c) :: (p, acc) :: ks, r ++ mc⟩ := by
                        simp [extendCur]
                      rw [hstC]
                      have hstep : ustep (⟨t, (n, c) :: (p, acc) :: ks, r ++ mc⟩ : UState)
                          (BLine.closeM n)
                          = some ⟨t, (p, acc ++ [Item.inc n]) :: ks, (r ++ mc) ++ [(n, c)]⟩ := by
                        simp [ustep, appendCur]
                      rw [urun_cons_some _ _ _ _ hstep]
                      rw [hrunR ⟨t, (p, acc ++ [Item.inc n]) :: ks, (r ++ mc) ++ [(n, c)]⟩
                        (by simp)]
                      simp [extendCur, List.append_assoc]

/-- Every module reachable from the root through resolved includes ends up
in the inlined list of a successful walk. -/
theorem reach_mem_inl (fs : FS) (sp : List Str) (root : Module)
    (body : List BLine) (inl1 : List Str)
    (h : bundleItems fs sp (bundleFuel fs root) 0 [root.name] [root.name]
        root.items = .ok (body, inl1)) :
    ∀ n, Reach fs sp root n → n ∈ inl1 := by
  obtain ⟨delta, mods, hd, hperm, hval, hincs, hclos, _, _⟩ :=
    bundleItems_ok_spec fs sp _ _ _ _ _ _ _ h
  intro n hr
  induction hr with
  | root =>
    rw [hd]
    exact List.mem_append_left _ (List.mem_singleton_self _)
  | step m k hm hk ihm =>
    by_cases hroot : m = root.name
    · subst hroot
      simp only [reachContent, if_pos rfl] at hk
      exact hincs k hk
    · have hmd : m ∈ delta := by
        rw [hd] at ihm
        rcases List.mem_append.mp ihm with h1 | h1
        · exact absurd (List.mem_singleton.mp h1) hroot
        · exact h1
      have hkm : m ∈ mods.map Prod.fst := (hperm.mem_iff).mpr hmd
      obtain ⟨p, hp, hp1⟩ := List.mem_map.mp hkm
      simp only [reachContent, if_neg hroot] at hk
      have hpv : p.2 = rcontent fs sp m := by
        rw [hval p hp, hp1]
      exact hclos p hp k (by rw [hpv]; exact hk)

/-- Evaluation of `unbundle` on a document whose parse ends with an empty
marker stack, empty top-level accumulation and a nonempty module list. -/
theorem unbundle_eval (doc : List BLine) (res1 : List (Str × List Item))
    (h : urun ⟨[], [], []⟩ doc = some ⟨[], [], res1⟩) (hne : res1 ≠ []) :
    unbundle doc = (res1, none) := by
  unfold unbundle
  rw [h]
  obtain ⟨q, qs, hq⟩ := List.exists_cons_of_ne_nil hne
  subst hq
  simp

/-- C1: for every acyclic module graph (every graph on which `bundle`
succeeds), unbundling the bundle reproduces the exact original content of
every module reachable from the root, keyed by the module's original
relative path, with no malformed-bundle condition reported. -/
theorem c1_round_trip (fs : FS) (sp : List Str) (root : Module)
    (doc : List BLine) (h : bundle fs sp root = .ok doc) :
    ∃ mods, unbundle doc = (mods, none)
      ∧ ∀ n, Reach fs sp root n →
          lookupKey mods n = some (reachContent fs sp root n) := by
  unfold bundle at h
  cases hb : bundleItems fs sp (bundleFuel fs root) 0 [root.name] [root.name]
      root.items with
  | error e =>
    rw [hb] at h
    exact absurd h (by simp)
  | ok pr =>
    obtain ⟨body, inl1⟩ := pr
    rw [hb] at h
    simp only [Except.ok.injEq] at h
    subst h
    obtain ⟨delta, mods0, hd, hperm, hval, hincs, hclos, hnd, hrun⟩ :=
      bundleItems_ok_spec fs sp _ _ _ _ _ _ _ hb
    have hnd1 : inl1.Nodup := hnd (List.nodup_singleton _)
    have hone : urun ⟨[], [], []⟩
        (BLine.openM root.name :: (body ++ [BLine.closeM root.name]))
        = some ⟨[], [], mods0 ++ [(root.name, root.items)]⟩ := by
      rw [urun_cons_some (⟨[], [], []⟩ : UState)
        (⟨[], [(root.name, [])], []⟩ : UState)
        (BLine.openM root.name) (body ++ [BLine.closeM root.name]) rfl]
      rw [urun_append_some _
        ({ extendCur (⟨[], [(root.name, [])], []⟩ : UState) root.items with
          res := (⟨[], [(root.name, [])], []⟩ : UState).res ++ mods0 })
        _ _ (hrun _ (by simp))]
      have hst : ({ extendCur (⟨[], [(root.name, [])], []⟩ : UState) root.items with
          res := (⟨[], [(root.name, [])], []⟩ : UState).res ++ mods0 } : UState)
          = ⟨[], [(root.name, root.items)], mods0⟩ := by
        simp [extendCur]
      rw [hst]
      rw [urun_cons_some _
        (⟨[], [], mods0 ++ [(root.name, root.items)]⟩ : UState)
        (BLine.closeM root.name) [] (by simp [ustep])]
      exact urun_nil _
    refine ⟨mods0 ++ [(root.name, root.items)],
      unbundle_eval _ _ hone (by simp), ?_⟩
    intro n hr
    have hmem : n ∈ inl1 := reach_mem_inl fs sp root body inl1 hb n hr
    rw [hd] at hnd1 hmem
    obtain ⟨hrd, hdnd⟩ := List.nodup_cons.mp hnd1
    have hkeysnd : (mods0.map Prod.fst).Nodup := (hperm.nodup_iff).mpr hdnd
    rcases List.mem_cons.mp hmem with he | hdel
    · subst he
      rw [lookupKey_append_right _ _ _
        (by intro hx; exact hrd ((hperm.mem_iff).mp hx))]
      have hlk : lookupKey [(root.name, root.items)] root.name
          = some root.items := by
        unfold lookupKey
        rw [List.find?_cons_of_pos _ (by simp)]
        rfl
      rw [hlk]
      simp [reachContent]
    · have hkm : n ∈ mods0.map Prod.fst := (hperm.mem_iff).mpr hdel
      obtain ⟨p, hp, hp1⟩ := List.mem_map.mp hkm
      have hv := hval p hp
      have hpn : p = (n, rcontent fs sp n) := by
        obtain ⟨p1, p2⟩ := p
        subst hp1
        exact congrArg (fun x => (p1, x)) hv
      have hlk : lookupKey mods0 n = some (rcontent fs sp n) :=
        lookupKey_of_mem_nodup mods0 n _ hkeysnd (hpn ▸ hp)
      rw [lookupKey_append_left _ _ _ _ hlk]
      have hne2 : ¬ n = root.name := fun e => hrd (e ▸ hdel)
      simp [reachContent, hne2]

/-- Witness for C1 on the concrete acyclic graph where `A` includes `B`:
unbundling the bundle reproduces `B`'s original content under its key. -/
theorem c1_round_trip_witness :
    ∃ mods, unbundle docRT = (mods, none)
      ∧ lookupKey mods ("B".toList) = some [Item.text "hi".toList] := by
  obtain ⟨mods, h1, h2⟩ := c1_round_trip fsRT ["d".toList] rootRT docRT rfl
  refine ⟨mods, h1, ?_⟩
  have hr : Reach fsRT ["d".toList] rootRT ("B".toList) :=
    Reach.step rootRT.name ("B".toList) Reach.root (by decide)
  have := h2 _ hr
  rwa [show reachContent fsRT ["d".toList] rootRT ("B".toList)
    = [Item.text "hi".toList] from by decide] at this

theorem fsWeight_anti (l : FS) (inl inl2 : List Str)
    (h : ∀ x ∈ inl, x ∈ inl2) : fsWeight l inl2 ≤ fsWeight l inl := by
  unfold fsWeight
  refine List.Sublist.sum_le_sum ?_ (by simp)
  refine List.Sublist.map _ ?_
  refine List.monotone_filter_right _ ?_
  intro e he
  simp only [decide_eq_true_eq] at he ⊢
  exact fun hx => he (h _ hx)

theorem fsWeight_append (fs1 fs2 : FS) (inl : List Str) :
    fsWeight (fs1 ++ fs2) inl = fsWeight fs1 inl + fsWeight fs2 inl := by
  unfold fsWeight
  rw [List.filter_append, List.map_append, List.sum_append]

theorem fsWeight_cons (e : Str × Str × List Item) (fs2 : FS) (inl : List Str) :
    fsWeight (e :: fs2) inl
      = (if e.2.1 ∈ inl then 0 else e.2.2.length + 2) + fsWeight fs2 inl := by
  unfold fsWeight
  rw [List.filter_cons]
  by_cases h : e.2.1 ∈ inl
  · simp [h]
  · simp [h]

theorem resolve_mem_entry (fs : FS) (sp : List Str) (n d : Str)
    (c : List Item) (h : resolve fs sp n = some (d, c)) : (d, n, c) ∈ fs := by
  induction sp with
  | nil => simp [resolve] at h
  | cons d0 rest ih =>
    simp only [resolve] at h
    cases hl : lookupFs fs d0 n with
    | none =>
      simp only [hl] at h
      exact ih h
    | some c0 =>
      simp only [hl, Option.some.injEq, Prod.mk.injEq] at h
      obtain ⟨h1, h2⟩ := h
      rw [h1, h2] at hl
      unfold lookupFs at hl
      cases hf : List.find? (fun e => decide (e.1 = d) && decide (e.2.1 = n)) fs with
      | none =>
        rw [hf] at hl
        exact absurd hl (by simp)
      | some a =>
        obtain ⟨a1, a2, a3⟩ := a
        rw [hf] at hl
        have hp := List.find?_some hf
        have hm := List.mem_of_find?_eq_some hf
        simp only [Bool.and_eq_true, decide_eq_true_eq] at hp
        obtain ⟨hp1, hp2⟩ := hp
        simp only [Option.map_some', Option.some.injEq] at hl
        subst hp1
        subst hp2
        subst hl
        exact hm

theorem fsWeight_drop (fs : FS) (d n : Str) (c : List Item) (inl : List Str)
    (hmem : (d, n, c) ∈ fs) (hninl : n ∉ inl) :
    fsWeight fs (inl ++ [n]) + (c.length + 2) ≤ fsWeight fs inl := by
  obtain ⟨l1, l2, rfl⟩ := List.append_of_mem hmem
  have a1 := fsWeight_anti l1 inl (inl ++ [n]) (fun x hx => List.mem_append_left _ hx)
  have a2 := fsWeight_anti l2 inl (inl ++ [n]) (fun x hx => List.mem_append_left _ hx)
  rw [fsWeight_append, fsWeight_cons, fsWeight_append, fsWeight_cons]
  simp only [show ((d, n, c) : Str × Str × List Item).2.1 = n from rfl,
    show ((d, n, c) : Str × Str × List Item).2.2 = c from rfl,
    List.mem_append, List.mem_singleton, or_true, if_true, if_neg hninl]
  omega

/-- With the fuel `bundle` supplies, the walk never runs out of fuel. -/
theorem bundleItems_no_fuelOut (fs : FS) (sp : List Str) :
    ∀ (fuel ln : Nat) (stk inl : List Str) (items : List Item),
    items.length + 1 + fsWeight fs inl ≤ fuel →
    bundleItems fs sp fuel ln stk inl items ≠ .error .fuelOut := by
  intro fuel
  induction fuel with
  | zero =>
    intro ln stk inl items hle
    exact absurd hle (by omega)
  | succ fuel ih =>
    intro ln stk inl items hle hcon
    cases items with
    | nil => simp [bundleItems] at hcon
    | cons it rest =>
      cases it with
      | text s =>
        simp only [bundleItems] at hcon
        cases hrec : bundleItems fs sp fuel (ln + 1) stk inl rest with
        | ok pr => simp [hrec] at hcon
        | error e =>
          simp only [hrec, Except.error.injEq] at hcon
          subst hcon
          exact ih (ln + 1) stk inl rest
            (by simp only [List.length_cons] at hle; omega) hrec
      | inc n =>
        simp only [bundleItems] at hcon
        by_cases hstk : n ∈ stk
        · rw [if_pos hstk] at hcon
          simp at hcon
        · rw [if_neg hstk] at hcon
          cases hres : resolve fs sp n with
          | none =>
            simp [hres] at hcon
          | some pr =>
            obtain ⟨d, c⟩ := pr
            simp only [hres] at hcon
            by_cases hinl : n ∈ inl
            · rw [if_pos hinl] at hcon
              cases hrec : bundleItems fs sp fuel (ln + 1) stk inl rest with
              | ok pr2 => simp [hrec] at hcon
              | error e =>
                simp only [hrec, Except.error.injEq] at hcon
                subst hcon
                exact ih (ln + 1) stk inl rest
                  (by simp only [List.length_cons] at hle; omega) hrec
            · rw [if_neg hinl] at hcon
              have hm : (d, n, c) ∈ fs := resolve_mem_entry fs sp n d c hres
              have hwd : fsWeight fs (inl ++ [n]) + (c.length + 2)
                  ≤ fsWeight fs inl := fsWeight_drop fs d n c inl hm hinl
              cases hcc : bundleItems fs sp fuel 0 (stk ++ [n]) (inl ++ [n]) c with
              | error e =>
                simp only [hcc, Except.error.injEq] at hcon
                subst hcon
                exact ih 0 (stk ++ [n]) (inl ++ [n]) c
                  (by simp only [List.length_cons] at hle; omega) hcc
              | ok prc =>
                obtain ⟨bodyC, inlC⟩ := prc
                simp only [hcc] at hcon
                obtain ⟨dc, mc, hdC, _, _, _, _, _, _⟩ :=
                  bundleItems_ok_spec fs sp _ _ _ _ _ _ _ hcc
                have hsub : ∀ x ∈ inl, x ∈ inlC := by
                  intro x hx
                  rw [hdC]
                  exact List.mem_append_left _ (List.mem_append_left _ hx)
                have hwa : fsWeight fs inlC ≤ fsWeight fs inl :=
                  fsWeight_anti fs inl inlC hsub
                cases hrr : bundleItems fs sp fuel (ln + 1) stk inlC rest with
                | ok prr => simp [hrr] at hcon
                | error e =>
                  simp only [hrr, Except.error.injEq] at hcon
                  subst hcon
                  exact ih (ln + 1) stk inlC rest
                    (by simp only [List.length_cons] at hle; omega) hrr

/-- A walk over items containing an unresolvable include never succeeds. -/
theorem bundleItems_fail_of_unresolved (fs : FS) (sp : List Str) :
    ∀ (fuel ln : Nat) (stk inl : List Str) (items : List Item),
    (∃ n, Item.inc n ∈ items ∧ resolve fs sp n = none) →
    ∀ b i, bundleItems fs sp fuel ln stk inl items ≠ .ok (b, i) := by
  intro fuel
  induction fuel with
  | zero =>
    intro ln stk inl items _ b i
    simp [bundleItems]
  | succ fuel ih =>
    intro ln stk inl items hex b i hcon
    obtain ⟨n0, hn0, hres0⟩ := hex
    cases items with
    | nil => simp at hn0
    | cons it rest =>
      cases it with
      | text s =>
        simp only [bundleItems] at hcon
        cases hrec : bundleItems fs sp fuel (ln + 1) stk inl rest with
        | error e =>
          simp only [hrec] at hcon
          exact absurd hcon (by simp)
        | ok pr =>
          obtain ⟨b2, i2⟩ := pr
          have hn0r : Item.inc n0 ∈ rest := by
            rcases List.mem_cons.mp hn0 with he | hm
            · exact absurd he (by simp)
            · exact hm
          exact ih (ln + 1) stk inl rest ⟨n0, hn0r, hres0⟩ b2 i2 hrec
      | inc m0 =>
        simp only [bundleItems] at hcon
        by_cases hstk : m0 ∈ stk
        · rw [if_pos hstk] at hcon
          exact absurd hcon (by simp)
        · rw [if_neg hstk] at hcon
          cases hres : resolve fs sp m0 with
          | none =>
            simp only [hres] at hcon
            exact absurd hcon (by simp)
          | some pr =>
            obtain ⟨d, c⟩ := pr
            simp only [hres] at hcon
            have hn0r : Item.inc n0 ∈ rest := by
              rcases List.mem_cons.mp hn0 with he | hm
              · have he2 : n0 = m0 := by
                  cases he
                  rfl
                subst he2
                exact absurd (hres0.symm.trans hres) (by simp)
              · exact hm
            by_cases hinl : m0 ∈ inl
            · rw [if_pos hinl] at hcon
              cases hrec : bundleItems fs sp fuel (ln + 1) stk inl rest with
              | error e =>
                simp only [hrec] at hcon
                exact absurd hcon (by simp)
              | ok pr2 =>
                obtain ⟨b2, i2⟩ := pr2
                exact ih (ln + 1) stk inl rest ⟨n0, hn0r, hres0⟩ b2 i2 hrec
            · rw [if_neg hinl] at hcon
              cases hcc : bundleItems fs sp fuel 0 (stk ++ [m0]) (inl ++ [m0]) c with
              | error e =>
                simp only [hcc] at hcon
                exact absurd hcon (by simp)
              | ok prc =>
                obtain ⟨bodyC, inlC⟩ := prc
                simp only [hcc] at hcon
                cases hrr : bundleItems fs sp fuel (ln + 1) stk inlC rest with
                | error e =>
                  simp only [hrr] at hcon
                  exact absurd hcon (by simp)
                | ok prr =>
                  obtain ⟨b2, i2⟩ := prr
                  exact ih (ln + 1) stk inlC rest ⟨n0, hn0r, hres0⟩ b2 i2 hrr

theorem getElem?_of_drop_cons {α : Type} {m : List α} {ln : Nat} {a : α}
    {rest : List α} (h : m.drop ln = a :: rest) : m[ln]? = some a := by
  have hd := (List.getElem?_drop m ln 0).symm
  rw [h] at hd
  simpa using hd

/-- An UnresolvedIncludeError reported by the walk is truthful: its module
name resolves to nothing and its line number points at an include directive
of that name inside one of the participating module contents. -/
theorem bundleItems_unresolved_spec (fs : FS) (sp : List Str) (root : Module) :
    ∀ (fuel ln : Nat) (stk inl : List Str) (items : List Item) (n : Str) (l : Nat),
    (∃ m ∈ allContents fs root, m.drop ln = items) →
    bundleItems fs sp fuel ln stk inl items = .error (.unresolvedInclude n l) →
    resolve fs sp n = none
    ∧ ∃ m ∈ allContents fs root, m[l]? = some (Item.inc n) := by
  intro fuel
  induction fuel with
  | zero =>
    intro ln stk inl items n l _ hcon
    simp [bundleItems] at hcon
  | succ fuel ih =>
    intro ln stk inl items n l hsuf hcon
    cases items with
    | nil => simp [bundleItems] at hcon
    | cons it rest =>
      have hsuf2 : ∃ m ∈ allContents fs root, m.drop (ln + 1) = rest := by
        obtain ⟨m, hm, hdrop⟩ := hsuf
        refine ⟨m, hm, ?_⟩
        rw [← List.drop_drop, hdrop]
        rfl
      cases it with
      | text s =>
        simp only [bundleItems] at hcon
        cases hrec : bundleItems fs sp fuel (ln + 1) stk inl rest with
        | ok pr =>
          simp only [hrec] at hcon
          exact absurd hcon (by simp)
        | error e =>
          simp only [hrec, Except.error.injEq] at hcon
          subst hcon
          exact ih (ln + 1) stk inl rest n l hsuf2 hrec
      | inc m0 =>
        simp only [bundleItems] at hcon
        by_cases hstk : m0 ∈ stk
        · rw [if_pos hstk] at hcon
          exact absurd hcon (by simp)
        · rw [if_neg hstk] at hcon
          cases hres : resolve fs sp m0 with
          | none =>
            simp only [hres, Except.error.injEq, BErr.unresolvedInclude.injEq] at hcon
            obtain ⟨h1, h2⟩ := hcon
            subst h1
            subst h2
            refine ⟨hres, ?_⟩
            obtain ⟨m, hm, hdrop⟩ := hsuf
            exact ⟨m, hm, getElem?_of_drop_cons hdrop⟩
          | some pr =>
            obtain ⟨d, c⟩ := pr
            simp only [hres] at hcon
            by_cases hinl : m0 ∈ inl
            · rw [if_pos hinl] at hcon
              cases hrec : bundleItems fs sp fuel (ln + 1) stk inl rest with
              | ok pr2 =>
                simp only [hrec] at hcon
                exact absurd hcon (by simp)
              | error e =>
                simp only [hrec, Except.error.injEq] at hcon
                subst hcon
                exact ih (ln + 1) stk inl rest n l hsuf2 hrec
            · rw [if_neg hinl] at hcon
              cases hcc : bundleItems fs sp fuel 0 (stk ++ [m0]) (inl ++ [m0]) c with
              | error e =>
                simp only [hcc, Except.error.injEq] at hcon
                subst hcon
                have hcmem : c ∈ allContents fs root := by
                  unfold allContents
                  exact List.mem_cons_of_mem _
                    (List.mem_map.mpr ⟨(d, m0, c), resolve_mem_entry fs sp m0 d c hres, rfl⟩)
                exact ih 0 (stk ++ [m0]) (inl ++ [m0]) c n l ⟨c, hcmem, rfl⟩ hcc
              | ok prc =>
                obtain ⟨bodyC, inlC⟩ := prc
                simp only [hcc] at hcon
                cases hrr : bundleItems fs sp fuel (ln + 1) stk inlC rest with
                | ok prr =>
                  simp only [hrr] at hcon
                  exact absurd hcon (by simp)
                | error e =>
                  simp only [hrr, Except.error.injEq] at hcon
                  subst hcon
                  exact ih (ln + 1) stk inlC rest n l hsuf2 hrr

/-- C6 (amended): a root containing an include directive whose name matches
no file under any search root cannot bundle; unless the depth-first walk
reports a CyclicIncludeError first, the failure is an UnresolvedIncludeError,
and every UnresolvedIncludeError carries a module name that resolves to
nothing together with the true source line of an offending directive in its
module. -/
theorem c6_unresolved_error (fs : FS) (sp : List Str) (root : Module)
    (hmiss : ∃ (l : Nat) (n : Str),
      root.items[l]? = some (Item.inc n) ∧ resolve fs sp n = none) :
    (∀ b, bundle fs sp root ≠ .ok b)
    ∧ (∀ (n : Str) (l : Nat),
        bundle fs sp root = .error (.unresolvedInclude n l) →
        resolve fs sp n = none
        ∧ ∃ m ∈ allContents fs root, m[l]? = some (Item.inc n))
    ∧ ((∀ ch, bundle fs sp root ≠ .error (.cyclicInclude ch)) →
        ∃ (n : Str) (l : Nat),
          bundle fs sp root = .error (.unresolvedInclude n l)) := by
  obtain ⟨l0, n0, hget, hres0⟩ := hmiss
  have hn0mem : Item.inc n0 ∈ root.items := List.getElem?_mem hget
  have hfail : ∀ b i, bundleItems fs sp (bundleFuel fs root) 0 [root.name]
      [root.name] root.items ≠ .ok (b, i) :=
    fun b i => bundleItems_fail_of_unresolved fs sp _ _ _ _ _
      ⟨n0, hn0mem, hres0⟩ b i
  have hnf : bundleItems fs sp (bundleFuel fs root) 0 [root.name] [root.name]
      root.items ≠ .error .fuelOut := by
    apply bundleItems_no_fuelOut
    have := fsWeight_anti fs [] [root.name] (by simp)
    unfold bundleFuel
    omega
  refine ⟨?_, ?_, ?_⟩
  · intro b hcon
    unfold bundle at hcon
    cases hb : bundleItems fs sp (bundleFuel fs root) 0 [root.name] [root.name]
        root.items with
    | error e =>
      simp only [hb] at hcon
      exact absurd hcon (by simp)
    | ok pr =>
      obtain ⟨b2, i2⟩ := pr
      exact hfail b2 i2 hb
  · intro n l hcon
    unfold bundle at hcon
    cases hb : bundleItems fs sp (bundleFuel fs root) 0 [root.name] [root.name]
        root.items with
    | ok pr =>
      obtain ⟨b2, i2⟩ := pr
      simp only [hb] at hcon
      exact absurd hcon (by simp)
    | error e =>
      simp only [hb, Except.error.injEq] at hcon
      subst hcon
      exact bundleItems_unresolved_spec fs sp root _ _ _ _ _ n l
        ⟨root.items, List.mem_cons_self _ _, rfl⟩ hb
  · intro hnc
    cases hb : bundleItems fs sp (bundleFuel fs root) 0 [root.name] [root.name]
        root.items with
    | ok pr =>
      obtain ⟨b2, i2⟩ := pr
      exact absurd hb (hfail b2 i2)
    | error e =>
      cases e with
      | unresolvedInclude n1 l1 =>
        refine ⟨n1, l1, ?_⟩
        unfold bundle
        simp only [hb]
      | cyclicInclude ch =>
        exfalso
        apply hnc ch
        unfold bundle
        simp only [hb]
      | fuelOut => exact absurd hb hnf

/-- C6 counterexample: a root whose first include leads into a cycle and
whose second include is unresolvable — bundling fails with a
CyclicIncludeError, not with the UnresolvedIncludeError naming the missing
module that the claim demands. -/
theorem c6_counterexample :
    resolve fsCyc ["d".toList] ("M".toList) = none
    ∧ rootCyc.items[1]? = some (Item.inc ("M".toList))
    ∧ bundle fsCyc ["d".toList] rootCyc
        = .error (.cyclicInclude ["R".toList, "A".toList, "R".toList])
    ∧ bundle fsCyc ["d".toList] rootCyc
        ≠ .error (.unresolvedInclude ("M".toList) 1) := by
  refine ⟨rfl, rfl, rfl, ?_⟩
  intro h
  have hc : bundle fsCyc ["d".toList] rootCyc
      = .error (.cyclicInclude ["R".toList, "A".toList, "R".toList]) := rfl
  exact absurd (hc.symm.trans h) (by simp)

/-- Witness for C6's amended statement: a lone unresolvable include makes
`bundle` fail with an UnresolvedIncludeError. -/
theorem c6_unresolved_error_witness :
    ∃ (n : Str) (l : Nat), bundle ([] : FS) ["d".toList] rootMiss
      = .error (.unresolvedInclude n l) := by
  have hb : bundle ([] : FS) ["d".toList] rootMiss
      = .error (.unresolvedInclude ("Missing".toList) 0) := rfl
  refine (c6_unresolved_error [] ["d".toList] rootMiss
    ⟨0, "Missing".toList, rfl, rfl⟩).2.2 ?_
  intro ch hcon
  rw [hb] at hcon
  exact absurd hcon (by simp)

theorem any_eq_mem_keys (m : List (Option Str × OutgoingJsonObject))
    (g : Option Str) :
    m.any (fun e => decide (e.1 = g)) = decide (g ∈ m.map Prod.fst) := by
  induction m with
  | nil => rfl
  | cons p ps ih =>
    simp only [List.any_cons, ih, List.map_cons, List.mem_cons]
    simp [eq_comm]

theorem setScript_keys (m : List (Option Str × OutgoingJsonObject))
    (g : Option Str) (s : Str) :
    (setScript m g s).map Prod.fst = m.map Prod.fst := by
  induction m with
  | nil => rfl
  | cons p ps ih =>
    simp only [setScript, List.map_cons] at ih ⊢
    rw [ih]
    by_cases h : p.1 = g <;> simp [h]

theorem setUi_keys (m : List (Option Str × OutgoingJsonObject))
    (g : Option Str) (s : Str) :
    (setUi m g s).map Prod.fst = m.map Prod.fst := by
  induction m with
  | nil => rfl
  | cons p ps ih =>
    simp only [setUi, List.map_cons] at ih ⊢
    rw [ih]
    by_cases h : p.1 = g <;> simp [h]

theorem registerGuid_keys (m : List (Option Str × OutgoingJsonObject))
    (f : Str) :
    (registerGuid m f).map Prod.fst
      = if guidOf f ∈ m.map Prod.fst then m.map Prod.fst
        else m.map Prod.fst ++ [guidOf f] := by
  rw [registerGuid]
  simp only [any_eq_mem_keys]
  by_cases h : guidOf f ∈ m.map Prod.fst <;> simp [h]

theorem processFile_keys (bLua : Str → List Str → Except Str Str)
    (bXml : Str → Option Str → Except Str Str) (ip : List Str) (dir : Str)
    (st : List (Option Str × OutgoingJsonObject) × List Str) (f : Str) :
    ((processFile bLua bXml ip dir st f).1.map Prod.fst)
      = if guidOf f ∈ st.1.map Prod.fst then st.1.map Prod.fst
        else st.1.map Prod.fst ++ [guidOf f] := by
  rw [processFile]
  by_cases h1 : (".lua".toList).isSuffixOf f
  · simp only [h1, if_true]
    cases bLua (uriOf dir f) ip <;>
      simp [setScript_keys, registerGuid_keys]
  · simp only [h1]
    by_cases h2 : (".xml".toList).isSuffixOf f
    · simp only [h2, if_true, if_false]
      cases bXml (uriOf dir f) ip[0]? <;>
        simp [setUi_keys, registerGuid_keys]
    · have h2' : ¬ ((['.', 'x', 'm', 'l'] : Str) <:+ f) := by simpa using h2
      simp [h1, h2', registerGuid_keys]

/-! ## Claim theorems -/

/-- C5: bundling the root `A` of the two-module graph in which `A` includes
`B` and `B` includes `A` fails with a CyclicIncludeError whose cycle chain is
exactly `[A, B, A]`, the module paths in visitation order. -/
theorem c5_cycle_chain :
    bundle fsAB ["d".toList] rootA
      = .error (.cyclicInclude ["A".toList, "B".toList, "A".toList]) := rfl

/-- C7: when a module name is present under more than one search root,
resolution returns the file under the root that appears earliest in the
ordered search-path list: with `searchPaths = [dirX, dirY]` and the module in
both, resolution returns dirX's file. -/
theorem c7_first_match_wins (fs : FS) (dX dY n : Str) (cX : List Item)
    (hX : lookupFs fs dX n = some cX) (hY : ∃ cY, lookupFs fs dY n = some cY) :
    resolve fs [dX, dY] n = some (dX, cX) := by
  obtain ⟨cY, _⟩ := hY
  simp [resolve, hX]

/-- Witness for C7 at a concrete file universe with module `M` under both
`dirX` and `dirY`. -/
theorem c7_first_match_wins_witness :
    resolve fsBoth ["dirX".toList, "dirY".toList] ("M".toList)
      = some ("dirX".toList, [Item.text "x".toList]) :=
  c7_first_match_wins fsBoth ("dirX".toList) ("dirY".toList) ("M".toList)
    [Item.text "x".toList] rfl ⟨[Item.text "y".toList], rfl⟩

/-- C2: unbundling an input with no boundary markers returns exactly one
module whose content equals the input, with a MalformedBundleError reported
as a value rather than thrown; and the adapter's `getUnbundledLua` returns
its argument unmodified whenever the unbundler throws. -/
theorem c2_no_marker_degradation :
    (∀ ls : List Str,
      unbundle (ls.map BLine.text)
        = ([(malformedKey, ls.map Item.text)], some MalformedBundleError.malformed))
    ∧ ∀ (E : Type) (u : Str → Except E Str) (s : Str) (e : E),
        u s = .error e → getUnbundledLua u s = s := by
  constructor
  · intro ls
    have hrun : urun ⟨[], [], []⟩ (ls.map BLine.text)
        = some ⟨ls.map Item.text, [], []⟩ := by
      rw [urun_texts]
      show some (extendCur ⟨[], [], []⟩ (ls.map Item.text)) = _
      simp [extendCur]
    unfold unbundle
    rw [hrun]
    simp [List.map_map, Function.comp, blineToItem]
  · intro E u s e h
    simp [getUnbundledLua, h]

/-- Witness for C2: a concrete always-throwing unbundler leaves the script
unchanged. -/
theorem c2_no_marker_degradation_witness :
    getUnbundledLua (fun _ : Str => (Except.error 0 : Except Nat Str)) ("x".toList)
      = "x".toList :=
  c2_no_marker_degradation.2 Nat (fun _ => Except.error 0) ("x".toList) 0 rfl

/-- C3 counterexample: with `includePaths = [dirX, dirY]`, the directory
argument the adapter passes to the markup bundler is `dirX` alone; a module
present only under `dirY` resolves under the full ordered list but not under
the single directory the markup variant receives. -/
theorem c3_counterexample :
    ((["dirX".toList, "dirY".toList] : List Str)[0]? = some ("dirX".toList))
    ∧ resolve fsXY ["dirX".toList, "dirY".toList] ("M".toList)
        = some ("dirY".toList, [Item.text "m".toList])
    ∧ resolve fsXY ((["dirX".toList, "dirY".toList] : List Str)[0]?).toList
        ("M".toList) = none :=
  ⟨rfl, rfl, rfl⟩

/-- C3 (amended): `createScripts` hands `bundleXml` only `includePaths[0]`
(a single optional directory) while `bundleLua` receives the whole ordered
list, so markup include resolution sees exactly one search root: a module
found only under the second root resolves for the script variant but not for
the markup variant. -/
theorem c3_markup_single_root :
    (∀ bLua bXml ip files dir,
      createScripts bLua bXml ip files dir
        = createScripts bLua (fun p _ => bXml p ip[0]?) ip files dir)
    ∧ (∀ bLua bXml ip files dir,
      createScripts bLua bXml ip files dir
        = createScripts (fun p _ => bLua p ip) bXml ip files dir)
    ∧ ∀ (fs : FS) (d1 d2 n : Str) (c : List Item),
        lookupFs fs d1 n = none → lookupFs fs d2 n = some c →
        resolve fs [d1, d2] n = some (d2, c)
        ∧ resolve fs (([d1, d2] : List Str)[0]?).toList n = none := by
  refine ⟨fun _ _ _ _ _ => rfl, fun _ _ _ _ _ => rfl, ?_⟩
  intro fs d1 d2 n c h1 h2
  constructor
  · simp [resolve, h1, h2]
  · show resolve fs [d1] n = none
    simp [resolve, h1]

/-- Witness for C3's amended statement at a concrete file universe. -/
theorem c3_markup_single_root_witness :
    resolve fsXY ["dirX".toList, "dirY".toList] ("M".toList)
      = some ("dirY".toList, [Item.text "m".toList])
    ∧ resolve fsXY ((["dirX".toList, "dirY".toList] : List Str)[0]?).toList
        ("M".toList) = none :=
  c3_markup_single_root.2.2 fsXY ("dirX".toList) ("dirY".toList) ("M".toList)
    [Item.text "m".toList] rfl rfl

/-- C4: a bundling failure for one file is caught inside the loop — the
error message is recorded for that file and the fold continues over the
remaining files from the state where the failing file contributed only its
registered guid; independently, the scripts map always ends up with one
entry per distinct guid of all processed files, failures notwithstanding. -/
theorem c4_per_file_error_isolation :
    (∀ bLua bXml ip dir (m : List (Option Str × OutgoingJsonObject))
        (errs : List Str) (f : Str) (rest : List Str) (e : Str),
      (".lua".toList).isSuffixOf f = true →
      bLua (uriOf dir f) ip = .error e →
      List.foldl (processFile bLua bXml ip dir) (m, errs) (f :: rest)
        = List.foldl (processFile bLua bXml ip dir)
            (registerGuid m f, errs ++ [e]) rest)
    ∧ ∀ bLua bXml ip dir (files : List Str)
        (st : List (Option Str × OutgoingJsonObject) × List Str),
      ((List.foldl (processFile bLua bXml ip dir) st files).1.map Prod.fst)
        = files.foldl
            (fun ks fn => if guidOf fn ∈ ks then ks else ks ++ [guidOf fn])
            (st.1.map Prod.fst) := by
  constructor
  · intro bLua bXml ip dir m errs f rest e h1 h2
    rw [List.foldl_cons]
    congr 1
    show processFile bLua bXml ip dir (m, errs) f = _
    rw [processFile]
    simp only [h1, if_true, h2]
  · intro bLua bXml ip dir files
    induction files with
    | nil => intro st; rfl
    | cons f fsR ih =>
      intro st
      rw [List.foldl_cons, List.foldl_cons,
        ih (processFile bLua bXml ip dir st f), processFile_keys]

/-- Witness for C4: a concrete failing bundler on the first of two files. -/
theorem c4_per_file_error_isolation_witness :
    List.foldl
        (processFile (fun _ _ => .error "boom".toList) (fun _ _ => .ok [])
          [] ("w".toList))
        ([], []) ["a.g1.lua".toList, "b.g2.lua".toList]
      = List.foldl
        (processFile (fun _ _ => .error "boom".toList) (fun _ _ => .ok [])
          [] ("w".toList))
        (registerGuid [] ("a.g1.lua".toList), [] ++ ["boom".toList])
        ["b.g2.lua".toList] :=
  c4_per_file_error_isolation.1 (fun _ _ => .error "boom".toList)
    (fun _ _ => .ok []) [] ("w".toList) [] [] ("a.g1.lua".toList)
    ["b.g2.lua".toList] ("boom".toList) rfl rfl

/-- C8: `toFileInfo` never populates the `ui` field, and consequently every
file `readFilesFromTTS` writes is a `.lua` file and none is an `.xml` file. -/
theorem c8_only_lua_writes :
    (∀ (E : Type) (u : Str → Except E Str) (o : IncomingJsonObject),
      (toFileInfo u o).ui = none)
    ∧ ∀ (E : Type) (u : Str → Except E Str) (out : Str)
        (states : List IncomingJsonObject) (w : WriteOp),
        w ∈ readFilesFromTTS u out states →
        (∃ b, w.file = b ++ ".lua".toList)
        ∧ ¬ ∃ b, w.file = b ++ ".xml".toList := by
  constructor
  · intro E u o
    rfl
  · intro E u out states w hw
    rw [readFilesFromTTS] at hw
    simp only [List.mem_flatMap] at hw
    obtain ⟨fi, hfi, hwmem⟩ := hw
    obtain ⟨o, _, rfl⟩ := List.mem_map.mp hfi
    have hui : (toFileInfo u o).ui = none := rfl
    rw [hui] at hwmem
    simp only [List.append_nil, List.mem_cons, List.mem_singleton] at hwmem
    have hfile : w.file = (toFileInfo u o).fileName ++ ".lua".toList := by
      rcases hwmem with h | h | h
      · rw [h]
      · rw [h]
      · cases h
    refine ⟨⟨(toFileInfo u o).fileName, hfile⟩, ?_⟩
    rintro ⟨b, hb⟩
    have h1 : ((toFileInfo u o).fileName ++ ".lua".toList).getLast? = some 'a' := by
      rw [List.getLast?_append]
      rfl
    have h2 : (b ++ ".xml".toList).getLast? = some 'l' := by
      rw [List.getLast?_append]
      rfl
    rw [hfile] at hb
    rw [hb] at h1
    exact absurd (h1.symm.trans h2) (by decide)

/-- Witness for C8 at a concrete script state. -/
theorem c8_only_lua_writes_witness :
    (∃ b, (⟨"out".toList, "Obj.g1.lua".toList, "s".toList⟩ : WriteOp).file
        = b ++ ".lua".toList)
    ∧ ¬ ∃ b, (⟨"out".toList, "Obj.g1.lua".toList, "s".toList⟩ : WriteOp).file
        = b ++ ".xml".toList :=
  c8_only_lua_writes.2 Unit (fun s => Except.ok s) ("out".toList)
    [⟨"Obj".toList, "g1".toList, "s".toList, none⟩]
    ⟨"out".toList, "Obj.g1.lua".toList, "s".toList⟩ (by decide)

/-- C9 counterexample: an object whose sanitized name contains no dot but
whose guid does — the guid recovered from the generated file name differs
from the original guid, refuting the claim as stated. -/
theorem c9_counterexample :
    '.' ∉ sanitizeName ("Card".toList)
    ∧ guidOf ((toFileInfo (fun s => (Except.ok s : Except Unit Str))
        ⟨"Card".toList, "ab.cd".toList, [], none⟩).fileName ++ ".lua".toList)
      ≠ some ("ab.cd".toList) := by
  decide

/-- C9 (amended): when neither the sanitized object name nor the guid
contains a dot, the guid recovered by `createScripts` from the generated
`.lua` file name equals the original guid; and for some object name
containing a dot the recovered guid differs from the original. -/
theorem c9_guid_recovery :
    (∀ (E : Type) (u : Str → Except E Str) (o : IncomingJsonObject),
      '.' ∉ sanitizeName o.name → '.' ∉ o.guid →
      guidOf ((toFileInfo u o).fileName ++ ".lua".toList) = some o.guid)
    ∧ ∃ o : IncomingJsonObject,
        '.' ∈ o.name
        ∧ guidOf ((toFileInfo (fun s => (Except.ok s : Except Unit Str))
            o).fileName ++ ".lua".toList) ≠ some o.guid := by
  constructor
  · intro E u o h1 h2
    have hsplit : (toFileInfo u o).fileName ++ ".lua".toList
        = sanitizeName o.name ++ '.' :: (o.guid ++ '.' :: "lua".toList) := by
      show (sanitizeName o.name ++ '.' :: o.guid) ++ ".lua".toList = _
      rw [List.append_assoc]
      rfl
    rw [guidOf, hsplit, splitOnChar_append _ _ _ h1, splitOnChar_append _ _ _ h2]
    rfl
  · exact ⟨⟨"a.b".toList, "g".toList, [], none⟩, by decide, by decide⟩

/-- Witness for C9's amended statement at a concrete dot-free object. -/
theorem c9_guid_recovery_witness :
    guidOf ((toFileInfo (fun s => (Except.ok s : Except Unit Str))
        ⟨"Card".toList, "abc123".toList, [], none⟩).fileName ++ ".lua".toList)
      = some ("abc123".toList) :=
  c9_guid_recovery.1 Unit (fun s => Except.ok s)
    ⟨"Card".toList, "abc123".toList, [], none⟩ (by decide) (by decide)

/-- C10: `saveAndPlay` is total (the promise always resolves): any error in
the pipeline is caught and logged and nothing is sent; a `workspace.saveAll`
rejection is logged with a message beginning with the fixed save-failure
text; scripts are sent only when every step succeeded. -/
theorem c10_save_and_play_total :
    ∀ (sa : Except Str Unit) (rf : Except Str (List Str))
      (cr : List Str → Except Str (List OutgoingJsonObject)),
    (∀ e, spPipeline sa rf cr = .error e → saveAndPlay sa rf cr = ⟨none, [e]⟩)
    ∧ (∀ r, sa = .error r →
        saveAndPlay sa rf cr
          = ⟨none, [savePrefixMsg ++ ("\nDetail: ".toList ++ r)]⟩)
    ∧ (∀ e, sa = .ok () → rf = .error e → saveAndPlay sa rf cr = ⟨none, [e]⟩)
    ∧ (∀ files e, sa = .ok () → rf = .ok files → cr files = .error e →
        saveAndPlay sa rf cr = ⟨none, [e]⟩)
    ∧ ∀ scripts, (saveAndPlay sa rf cr).sent = some scripts →
        spPipeline sa rf cr = .ok scripts := by
  intro sa rf cr
  refine ⟨?_, ?_, ?_, ?_, ?_⟩
  · intro e h
    simp [saveAndPlay, h]
  · intro r h
    simp [saveAndPlay, spPipeline, saveAllFiles, h]
  · intro e h1 h2
    simp [saveAndPlay, spPipeline, saveAllFiles, h1, h2]
  · intro files e h1 h2 h3
    simp [saveAndPlay, spPipeline, saveAllFiles, h1, h2, h3]
  · intro scripts h
    cases hp : spPipeline sa rf cr with
    | ok s =>
      simp [saveAndPlay, hp] at h
      rw [h]
    | error e =>
      simp [saveAndPlay, hp] at h

/-- Witness for C10: a concrete save failure is logged with the fixed text
and nothing is sent. -/
theorem c10_save_and_play_total_witness :
    saveAndPlay (.error "disk".toList) (.ok []) (fun _ => .ok [])
      = ⟨none, [savePrefixMsg ++ ("\nDetail: ".toList ++ "disk".toList)]⟩ :=
  (c10_save_and_play_total (.error "disk".toList) (.ok [])
    (fun _ => .ok [])).2.1 ("disk".toList) rfl

end TTSTools
